import Mathlib

/-!
Verification development for the zeichenformer tokenizer repository.

The development shallowly embeds the three core tokenizers (numeric
binary-bisection, categorical, timestamp) from the C sources:

* `binary_fit` / `binary_encode` / `binary_decode` — from src/unnamed/part_000.
  C `double` values are modelled by `DVal`: either NaN, one of the two
  infinities, or an exact rational.  Finite arithmetic is modelled exactly
  (no rounding); the IEEE rules for NaN and the infinities in comparisons
  and in `+`, `-`, `/ 2.0` are modelled faithfully.  `DBL_MAX` is the exact
  rational value of the largest finite double.
* `category_fit` / `category_encode` / `category_decode` — from
  src/unnamed/part_001.  C strings are modelled as lists of bytes
  (`List ℕ`); `strcmp` is the lexicographic byte comparison `strcmp3`;
  `qsort` is modelled by an insertion sort with the same comparator (the
  result, a sorted permutation of distinct keys, is unique, so the choice
  of algorithm is immaterial).  A `NULL` pointer argument is `none`.
* `timestamp_parse` / `timestamp_encode` / `timestamp_decode` — from the
  first variant in src/src/timestamp.c (lines 1–153), and
  `timestamp_encode2` from the second variant (lines 154 onwards).
  `sscanf` numeric fields are modelled by `scanField` (greedy bounded
  digit runs); the leading-whitespace/sign tolerance of `%d` and the
  `%f` fractional-seconds fallback of the C code are not modelled — no
  claim below depends on inputs that exercise them.  C `int` values are
  modelled by `ℤ` (no claim concerns `int` overflow); C integer division,
  which truncates toward zero, is `Int.tdiv`.
-/

/-- Bytes of a Lean string literal, as the C char array (without the
terminating NUL). Used only to write concrete byte strings readably. -/
def strBytes (s : String) : List ℕ := s.toList.map Char.toNat

/-! ## Model of C doubles -/

/-- A C `double`: NaN, +infinity, -infinity, or an exact finite value. -/
inductive DVal where
  | nan : DVal
  | inf : DVal
  | ninf : DVal
  | fin : ℚ → DVal
deriving DecidableEq

/-- C `isnan`. -/
def disnan : DVal → Bool
  | .nan => true
  | _ => false

/-- IEEE `<` on doubles: any comparison with NaN is false. -/
def dlt : DVal → DVal → Bool
  | .nan, _ => false
  | _, .nan => false
  | .ninf, .ninf => false
  | .ninf, _ => true
  | _, .ninf => false
  | .inf, .inf => false
  | .inf, _ => false
  | .fin _, .inf => true
  | .fin p, .fin q => decide (p < q)

/-- IEEE `<=` on doubles: any comparison with NaN is false. -/
def dle : DVal → DVal → Bool
  | .nan, _ => false
  | _, .nan => false
  | .ninf, _ => true
  | _, .ninf => false
  | _, .inf => true
  | .inf, _ => false
  | .fin p, .fin q => decide (p ≤ q)

/-- IEEE negation. -/
def dneg : DVal → DVal
  | .nan => .nan
  | .inf => .ninf
  | .ninf => .inf
  | .fin q => .fin (-q)

/-- IEEE addition (exact in the finite case). -/
def dadd : DVal → DVal → DVal
  | .nan, _ => .nan
  | _, .nan => .nan
  | .inf, .ninf => .nan
  | .ninf, .inf => .nan
  | .inf, _ => .inf
  | _, .inf => .inf
  | .ninf, _ => .ninf
  | _, .ninf => .ninf
  | .fin p, .fin q => .fin (p + q)

/-- IEEE subtraction (exact in the finite case). -/
def dsub (a b : DVal) : DVal := dadd a (dneg b)

/-- IEEE division by 2.0 (exact in the finite case). -/
def dhalf : DVal → DVal
  | .nan => .nan
  | .inf => .inf
  | .ninf => .ninf
  | .fin q => .fin (q / 2)

/-- The exact value of `DBL_MAX`. -/
def dblMax : ℚ := 2 ^ 1024 - 2 ^ 971

/-! ## BinaryTokenizer (src/unnamed/part_000) -/

structure BinaryTokenizer where
  num_bits : ℕ
  min_val : DVal
  max_val : DVal
  fitted : Bool
deriving DecidableEq

/-- `binary_init`: `num_bits` is taken from the caller, `min`/`max` start as
NaN, the tokenizer starts unfitted. -/
def binary_init (num_bits : ℕ) : BinaryTokenizer :=
  { num_bits := num_bits, min_val := .nan, max_val := .nan, fitted := false }

/-- The running-minimum step of the `binary_fit` scan:
`if (values[i] < min) min = values[i];`. -/
def fitMinStep (m v : DVal) : DVal := if dlt v m then v else m

/-- The running-maximum step of the `binary_fit` scan:
`if (values[i] > max) max = values[i];`. -/
def fitMaxStep (m v : DVal) : DVal := if dlt m v then v else m

/-- `binary_fit`: unfits the tokenizer on empty input, otherwise scans for
min and max starting from `DBL_MAX` and `-DBL_MAX`. -/
def binary_fit (t : BinaryTokenizer) (values : List DVal) : BinaryTokenizer :=
  if values = [] then { t with fitted := false }
  else
    { t with
      min_val := values.foldl fitMinStep (.fin dblMax)
      max_val := values.foldl fitMaxStep (.fin (-dblMax))
      fitted := true }

/-- The bisection loop of `binary_encode`: at bit `b`, if `value > center`
emit `b` and move the center up, else move it down; halve the width either
way. `fuel` is the number of remaining iterations (initially `num_bits`). -/
def binary_encodeLoop (value : DVal) : DVal → DVal → ℕ → ℕ → List ℕ
  | _, _, _, 0 => []
  | center, width, b, fuel + 1 =>
    if dlt center value then
      b :: binary_encodeLoop value (dadd center (dhalf width)) (dhalf width) (b + 1) fuel
    else
      binary_encodeLoop value (dsub center (dhalf width)) (dhalf width) (b + 1) fuel

/-- `binary_encode`: empty output when unfitted, NaN, or the range guard
`value >= min && value <= max` fails; otherwise the bisection loop. -/
def binary_encode (t : BinaryTokenizer) (value : DVal) : List ℕ :=
  if !t.fitted || disnan value then []
  else if !(dle t.min_val value && dle value t.max_val) then []
  else
    binary_encodeLoop value
      (dhalf (dadd t.min_val t.max_val))
      (dhalf (dsub t.max_val t.min_val))
      0 t.num_bits

/-- The reconstruction loop of `binary_decode`: for each bit position `b`,
add `width/2` when `b` occurs among the indices and subtract it otherwise. -/
def binary_decodeLoop (indices : List ℕ) : DVal → DVal → ℕ → ℕ → DVal
  | value, _, _, 0 => value
  | value, width, b, fuel + 1 =>
    binary_decodeLoop indices
      (if indices.contains b then dadd value (dhalf width) else dsub value (dhalf width))
      (dhalf width) (b + 1) fuel

/-- `binary_decode`: NaN when unfitted or the index sequence is empty,
otherwise the reconstruction loop started at the interval center. -/
def binary_decode (t : BinaryTokenizer) (indices : List ℕ) : DVal :=
  if !t.fitted || indices.length = 0 then .nan
  else
    binary_decodeLoop indices
      (dhalf (dadd t.min_val t.max_val))
      (dhalf (dsub t.max_val t.min_val))
      0 t.num_bits

/-! ## Rational view of the bisection loops

When the tokenizer bounds and the value are finite, every quantity in the
encode/decode loops stays finite; the following pure rational versions of
the loops are proved equal to the `DVal` ones and carry the quantitative
round-trip argument. -/

/-- Rational mirror of `binary_encodeLoop`. -/
def rEncLoop (v : ℚ) : ℚ → ℚ → ℕ → ℕ → List ℕ
  | _, _, _, 0 => []
  | c, w, b, fuel + 1 =>
    if c < v then b :: rEncLoop v (c + w / 2) (w / 2) (b + 1) fuel
    else rEncLoop v (c - w / 2) (w / 2) (b + 1) fuel

/-- Rational mirror of `binary_decodeLoop`. -/
def rDecLoop (indices : List ℕ) : ℚ → ℚ → ℕ → ℕ → ℚ
  | value, _, _, 0 => value
  | value, w, b, fuel + 1 =>
    rDecLoop indices
      (if indices.contains b then value + w / 2 else value - w / 2)
      (w / 2) (b + 1) fuel

/-- The final center reached by the bisection of `v` from center `c` and
half-width `w` in `n` steps. -/
def rCenter (v : ℚ) : ℚ → ℚ → ℕ → ℚ
  | c, _, 0 => c
  | c, w, n + 1 =>
    if c < v then rCenter v (c + w / 2) (w / 2) n
    else rCenter v (c - w / 2) (w / 2) n

theorem binary_encodeLoop_fin (v c w : ℚ) :
    ∀ n b, binary_encodeLoop (.fin v) (.fin c) (.fin w) b n = rEncLoop v c w b n := by
  intro n
  induction n generalizing c w with
  | zero => intro b; rfl
  | succ n ih =>
    intro b
    simp only [binary_encodeLoop, rEncLoop, dlt, dadd, dhalf, dsub, dneg, decide_eq_true_eq]
    by_cases h : c < v
    · simp [h, ih, sub_eq_add_neg]
    · simp [h, ih, sub_eq_add_neg]

theorem binary_decodeLoop_fin (L : List ℕ) (value w : ℚ) :
    ∀ n b, binary_decodeLoop L (.fin value) (.fin w) b n = .fin (rDecLoop L value w b n) := by
  intro n
  induction n generalizing value w with
  | zero => intro b; rfl
  | succ n ih =>
    intro b
    cases hc : L.contains b with
    | true =>
      simp only [binary_decodeLoop, rDecLoop, hc, if_true, dadd, dhalf]
      exact ih _ _ _
    | false =>
      simp only [binary_decodeLoop, rDecLoop, hc, Bool.false_eq_true, if_false,
        dsub, dadd, dneg, dhalf]
      rw [show value + -(w / 2) = value - w / 2 by ring]
      exact ih _ _ _

/-- Every index emitted by the encode loop is at least the starting bit. -/
theorem rEncLoop_ge (v : ℚ) : ∀ n c w b x, x ∈ rEncLoop v c w b n → b ≤ x := by
  intro n
  induction n with
  | zero => intro c w b x hx; simp [rEncLoop] at hx
  | succ n ih =>
    intro c w b x hx
    simp only [rEncLoop] at hx
    by_cases h : c < v
    · simp [h] at hx
      rcases hx with rfl | hx
      · exact le_refl x
      · exact le_trans (Nat.le_succ b) (ih _ _ _ _ hx)
    · simp [h] at hx
      exact le_trans (Nat.le_succ b) (ih _ _ _ _ hx)

/-- Decoding replays the bisection: running the decode loop on any list
whose elements below `b` are irrelevant and whose tail is exactly the
encode output reproduces the final bisection center. -/
theorem rDecLoop_replay (v : ℚ) :
    ∀ n c w b (P : List ℕ), (∀ x ∈ P, x < b) →
      rDecLoop (P ++ rEncLoop v c w b n) c w b n = rCenter v c w n := by
  intro n
  induction n with
  | zero => intro c w b P _; rfl
  | succ n ih =>
    intro c w b P hP
    by_cases h : c < v
    · have hL : P ++ rEncLoop v c w b (n + 1)
          = (P ++ [b]) ++ rEncLoop v (c + w / 2) (w / 2) (b + 1) n := by
        simp [rEncLoop, if_pos h]
      have hmem : (P ++ rEncLoop v c w b (n + 1)).contains b = true := by
        rw [hL]
        simp [List.contains]
      rw [show rCenter v c w (n + 1) = rCenter v (c + w / 2) (w / 2) n by
        simp [rCenter, if_pos h]]
      simp only [rDecLoop, hmem, if_true]
      have hP' : ∀ x ∈ P ++ [b], x < b + 1 := by
        intro x hx
        rcases List.mem_append.1 hx with hx | hx
        · exact Nat.lt_succ_of_lt (hP x hx)
        · simp at hx; omega
      have := ih (c + w / 2) (w / 2) (b + 1) (P ++ [b]) hP'
      rw [hL]
      exact this
    · have hL : P ++ rEncLoop v c w b (n + 1)
          = P ++ rEncLoop v (c - w / 2) (w / 2) (b + 1) n := by
        simp [rEncLoop, if_neg h]
      have hmem : (P ++ rEncLoop v c w b (n + 1)).contains b = false := by
        rw [hL]
        simp only [List.contains, List.elem_eq_mem, List.mem_append, decide_eq_false_iff_not]
        rintro (hx | hx)
        · exact absurd (hP b hx) (by omega)
        · exact absurd (rEncLoop_ge v n _ _ (b + 1) b hx) (by omega)
      rw [show rCenter v c w (n + 1) = rCenter v (c - w / 2) (w / 2) n by
        simp [rCenter, if_neg h]]
      simp only [rDecLoop, hmem, Bool.false_eq_true, if_false]
      have := ih (c - w / 2) (w / 2) (b + 1) P (fun x hx => Nat.lt_succ_of_lt (hP x hx))
      rw [hL]
      exact this

/-- Quantitative bisection bound: if `v` is within `w` of the center, the
final center after `n` halvings is within `w / 2^n` of `v`. -/
theorem rCenter_bound (v : ℚ) :
    ∀ n c w, |v - c| ≤ w → |v - rCenter v c w n| ≤ w / 2 ^ n := by
  intro n
  induction n with
  | zero => intro c w h; simpa using h
  | succ n ih =>
    intro c w h
    have hw : 0 ≤ w := le_trans (abs_nonneg _) h
    rw [abs_le] at h
    simp only [rCenter]
    by_cases hc : c < v
    · rw [if_pos hc]
      have h2 : |v - (c + w / 2)| ≤ w / 2 := by
        rw [abs_le]; constructor <;> [linarith; linarith]
      have := ih (c + w / 2) (w / 2) h2
      calc |v - rCenter v (c + w / 2) (w / 2) n| ≤ w / 2 / 2 ^ n := this
        _ = w / 2 ^ (n + 1) := by rw [pow_succ]; ring
    · rw [if_neg hc]
      push_neg at hc
      have h2 : |v - (c - w / 2)| ≤ w / 2 := by
        rw [abs_le]; constructor <;> [linarith; linarith]
      have := ih (c - w / 2) (w / 2) h2
      calc |v - rCenter v (c - w / 2) (w / 2) n| ≤ w / 2 / 2 ^ n := this
        _ = w / 2 ^ (n + 1) := by rw [pow_succ]; ring

/-- With finite fitted bounds and an in-range finite value the encode guard
passes and the loop runs on rationals. -/
theorem binary_encode_fin_eq (n : ℕ) (m M v : ℚ) (h1 : m ≤ v) (h2 : v ≤ M) :
    binary_encode ⟨n, .fin m, .fin M, true⟩ (.fin v)
      = rEncLoop v ((m + M) / 2) ((M - m) / 2) 0 n := by
  simp [binary_encode, disnan, dle, h1, h2, dadd, dhalf, dsub, dneg,
    binary_encodeLoop_fin, sub_eq_add_neg]

/-- With finite fitted bounds, decoding a non-empty index list runs the
rational reconstruction loop. -/
theorem binary_decode_fin_eq (n : ℕ) (m M : ℚ) (L : List ℕ) (hL : L ≠ []) :
    binary_decode ⟨n, .fin m, .fin M, true⟩ L
      = .fin (rDecLoop L ((m + M) / 2) ((M - m) / 2) 0 n) := by
  have hlen : L.length ≠ 0 := by simpa using hL
  simp [binary_decode, hlen, dadd, dhalf, dsub, dneg,
    binary_decodeLoop_fin, sub_eq_add_neg]

/-- C1, amended: for a fitted numeric tokenizer with finite bounds
`min ≤ max` and a value `min ≤ v ≤ max` whose encoding is non-empty,
decoding the encoding yields a finite value within `(max-min)/2^num_bits`
of `v`. -/
theorem binary_roundtrip_within_resolution (n : ℕ) (m M v : ℚ)
    (h1 : m ≤ v) (h2 : v ≤ M)
    (hne : binary_encode ⟨n, .fin m, .fin M, true⟩ (.fin v) ≠ []) :
    ∃ q : ℚ, binary_decode ⟨n, .fin m, .fin M, true⟩
        (binary_encode ⟨n, .fin m, .fin M, true⟩ (.fin v)) = .fin q ∧
      |q - v| ≤ (M - m) / 2 ^ n := by
  have henc := binary_encode_fin_eq n m M v h1 h2
  rw [henc] at hne ⊢
  rw [binary_decode_fin_eq n m M _ hne]
  refine ⟨rDecLoop (rEncLoop v ((m + M) / 2) ((M - m) / 2) 0 n)
      ((m + M) / 2) ((M - m) / 2) 0 n, rfl, ?_⟩
  have hreplay := rDecLoop_replay v n ((m + M) / 2) ((M - m) / 2) 0 [] (by simp)
  simp only [List.nil_append] at hreplay
  rw [hreplay]
  have hstart : |v - (m + M) / 2| ≤ (M - m) / 2 := by
    rw [abs_le]; constructor <;> linarith
  have hbound := rCenter_bound v n ((m + M) / 2) ((M - m) / 2) hstart
  rw [abs_sub_comm]
  refine le_trans hbound ?_
  have hMm : 0 ≤ M - m := by linarith
  have h2n : (0 : ℚ) < 2 ^ n := by positivity
  rw [div_div, div_le_div_iff (by positivity) h2n]
  ring_nf
  nlinarith [h2n, hMm]

/-- Witness for `binary_roundtrip_within_resolution` at
`num_bits = 1`, `min = 0`, `max = 4`, `v = 3`. -/
theorem binary_roundtrip_within_resolution_witness :
    ∃ q : ℚ, binary_decode ⟨1, .fin 0, .fin 4, true⟩
        (binary_encode ⟨1, .fin 0, .fin 4, true⟩ (.fin 3)) = .fin q ∧
      |q - 3| ≤ (4 - 0) / 2 ^ 1 :=
  binary_roundtrip_within_resolution 1 0 4 3 (by norm_num) (by norm_num)
    (by norm_num [binary_encode, binary_encodeLoop, disnan, dle, dadd, dhalf, dsub, dneg, dlt])

/-- C1, counterexample: on the tokenizer fitted to `{0, 1}` with
`num_bits = 2`, the value `v = min = 0` lies in `[min, max]` but the
round trip does not produce a number within `(max-min)/2^num_bits` of it
(it produces NaN), refuting the claim as stated. -/
theorem binary_roundtrip_counterexample :
    ¬ ∃ q : ℚ, binary_decode (binary_fit (binary_init 2) [.fin 0, .fin 1])
        (binary_encode (binary_fit (binary_init 2) [.fin 0, .fin 1]) (.fin 0)) = .fin q ∧
      |q - 0| ≤ (1 - 0) / 2 ^ 2 := by
  have hT : binary_fit (binary_init 2) [.fin 0, .fin 1]
      = ⟨2, .fin 0, .fin 1, true⟩ := by
    have hne : ([DVal.fin 0, DVal.fin 1] : List DVal) ≠ [] := by simp
    norm_num [binary_fit, binary_init, fitMinStep, fitMaxStep, dlt, dblMax, hne]
  have hE : binary_encode ⟨2, .fin 0, .fin 1, true⟩ (.fin 0) = [] := by
    norm_num [binary_encode, binary_encodeLoop, disnan, dle, dadd, dhalf, dsub, dneg, dlt]
  rintro ⟨q, hq, -⟩
  rw [hT, hE] at hq
  simp [binary_decode] at hq

/-- Helper for C10: the bisection of the left endpoint never emits a bit,
because the center always stays at distance exactly `w` above the left
endpoint of the current interval. -/
theorem rEncLoop_left_endpoint (m : ℚ) :
    ∀ n c w b, c - w = m → 0 ≤ w → rEncLoop m c w b n = [] := by
  intro n
  induction n with
  | zero => intro c w b _ _; rfl
  | succ n ih =>
    intro c w b hcw hw
    have hnc : ¬ c < m := by linarith [hcw, hw]
    simp only [rEncLoop, if_neg hnc]
    exact ih (c - w / 2) (w / 2) (b + 1) (by linarith) (by linarith)

/-- C10: on a fitted numeric tokenizer with finite bounds `min ≤ max` and
`num_bits ≥ 1`, encoding `min` itself returns the empty sequence, and the
round trip at `min` therefore decodes to NaN. -/
theorem binary_encode_min_empty (n : ℕ) (m M : ℚ) (hmM : m ≤ M) (hn : 1 ≤ n) :
    binary_encode ⟨n, .fin m, .fin M, true⟩ (.fin m) = [] ∧
    binary_decode ⟨n, .fin m, .fin M, true⟩
      (binary_encode ⟨n, .fin m, .fin M, true⟩ (.fin m)) = .nan := by
  have hE : binary_encode ⟨n, .fin m, .fin M, true⟩ (.fin m) = [] := by
    rw [binary_encode_fin_eq n m M m le_rfl hmM]
    exact rEncLoop_left_endpoint m n ((m + M) / 2) ((M - m) / 2) 0 (by ring) (by linarith)
  refine ⟨hE, ?_⟩
  rw [hE]
  simp [binary_decode]

/-- Witness for `binary_encode_min_empty` at `num_bits = 2`, bounds `[0, 1]`. -/
theorem binary_encode_min_empty_witness :
    binary_encode ⟨2, .fin 0, .fin 1, true⟩ (.fin 0) = [] ∧
    binary_decode ⟨2, .fin 0, .fin 1, true⟩
      (binary_encode ⟨2, .fin 0, .fin 1, true⟩ (.fin 0)) = .nan :=
  binary_encode_min_empty 2 0 1 (by norm_num) (by norm_num)

/-! ## Non-finite values in the encode loop (for C8) -/

theorem dlt_nan_left (v : DVal) : dlt .nan v = false := by cases v <;> rfl

theorem dsub_nan_left (v : DVal) : dsub .nan v = .nan := by cases v <;> rfl

/-- Once the running center is NaN it stays NaN and no bit is ever emitted. -/
theorem binary_encodeLoop_nan_center :
    ∀ fuel (v w : DVal) b, binary_encodeLoop v .nan w b fuel = [] := by
  intro fuel
  induction fuel with
  | zero => intros; rfl
  | succ n ih =>
    intro v w b
    simp only [binary_encodeLoop, dlt_nan_left, Bool.false_eq_true, if_false,
      dsub_nan_left]
    exact ih v (dhalf w) (b + 1)

/-- If the first iteration turns the center into NaN without emitting, the
loop emits nothing. -/
theorem binary_encodeLoop_step_to_nan (v c w : DVal)
    (h1 : dlt c v = false) (h2 : dsub c (dhalf w) = .nan) :
    ∀ fuel b, binary_encodeLoop v c w b fuel = [] := by
  intro fuel b
  cases fuel with
  | zero => rfl
  | succ n =>
    simp only [binary_encodeLoop, h1, Bool.false_eq_true, if_false, h2]
    exact binary_encodeLoop_nan_center n v (dhalf w) (b + 1)

/-- Bisecting `-inf` from center `-inf` with width `inf` emits nothing. -/
theorem binary_encodeLoop_ninf :
    ∀ fuel b, binary_encodeLoop .ninf .ninf .inf b fuel = [] := by
  intro fuel
  induction fuel with
  | zero => intros; rfl
  | succ n ih =>
    intro b
    simp only [binary_encodeLoop, dlt, Bool.false_eq_true, if_false, dsub, dneg, dhalf, dadd]
    exact ih (b + 1)

/-- C8: the encoding is empty on an unfitted tokenizer, on NaN, on either
infinity (whatever the fitted bounds are), and on finite values strictly
outside finite fitted bounds. -/
theorem binary_encode_empty_cases :
    (∀ t v, t.fitted = false → binary_encode t v = []) ∧
    (∀ t, binary_encode t .nan = []) ∧
    (∀ t, binary_encode t .inf = [] ∧ binary_encode t .ninf = []) ∧
    (∀ n (m M v : ℚ), v < m ∨ M < v →
      binary_encode ⟨n, .fin m, .fin M, true⟩ (.fin v) = []) := by
  refine ⟨?_, ?_, ?_, ?_⟩
  · intro t v h
    simp [binary_encode, h]
  · intro t
    simp [binary_encode, disnan]
  · intro t
    obtain ⟨n, mn, mx, ft⟩ := t
    cases ft
    · constructor <;> simp [binary_encode]
    · constructor
      · cases mx with
        | nan => simp [binary_encode, dle]
        | ninf => simp [binary_encode, dle]
        | fin q => simp [binary_encode, dle]
        | inf =>
          cases mn with
          | nan => simp [binary_encode, dle]
          | ninf =>
            simp only [binary_encode, disnan, Bool.not_true, Bool.false_or, dle,
              Bool.and_self, Bool.not_true, dadd, dhalf]
            simp [binary_encodeLoop_nan_center]
          | inf =>
            simp only [binary_encode, disnan, Bool.not_true, Bool.false_or, dle,
              Bool.and_self, dadd, dsub, dneg, dhalf]
            simp [binary_encodeLoop_step_to_nan .inf .inf .nan rfl rfl]
          | fin m =>
            simp only [binary_encode, disnan, Bool.not_true, Bool.false_or, dle,
              Bool.and_self, dadd, dsub, dneg, dhalf]
            simp [binary_encodeLoop_step_to_nan .inf .inf .inf rfl rfl]
      · cases mn with
        | nan => simp [binary_encode, dle]
        | inf => simp [binary_encode, dle]
        | fin q => simp [binary_encode, dle]
        | ninf =>
          cases mx with
          | nan => simp [binary_encode, dle]
          | inf =>
            simp only [binary_encode, disnan, Bool.not_true, Bool.false_or, dle,
              Bool.and_self, dadd, dhalf]
            simp [binary_encodeLoop_nan_center]
          | ninf =>
            simp only [binary_encode, disnan, Bool.not_true, Bool.false_or, dle,
              Bool.and_self, dadd, dsub, dneg, dhalf]
            simp [binary_encodeLoop_step_to_nan .ninf .ninf .nan rfl rfl]
          | fin M =>
            simp only [binary_encode, disnan, Bool.not_true, Bool.false_or, dle,
              Bool.and_self, dadd, dsub, dneg, dhalf]
            simp [binary_encodeLoop_ninf]
  · intro n m M v h
    rcases h with h | h
    · simp [binary_encode, dle, show ¬(m ≤ v) from not_le.2 h]
    · simp [binary_encode, dle, show ¬(v ≤ M) from not_le.2 h]

/-- Witness for `binary_encode_empty_cases`: unfitted tokenizer, NaN,
+infinity, and the out-of-range value 2 for bounds `[0, 1]`. -/
theorem binary_encode_empty_cases_witness :
    binary_encode (binary_init 8) (.fin 0) = [] ∧
    binary_encode ⟨8, .fin 0, .fin 1, true⟩ .nan = [] ∧
    binary_encode ⟨8, .fin 0, .fin 1, true⟩ .inf = [] ∧
    binary_encode ⟨8, .fin 0, .fin 1, true⟩ (.fin 2) = [] :=
  ⟨binary_encode_empty_cases.1 (binary_init 8) (.fin 0) rfl,
   binary_encode_empty_cases.2.1 _,
   (binary_encode_empty_cases.2.2.1 _).1,
   binary_encode_empty_cases.2.2.2 8 0 1 2 (Or.inr (by norm_num))⟩

/-! ## Order facts about non-NaN doubles (for C9) -/

theorem dle_refl_of_notnan (a : DVal) (h : disnan a = false) : dle a a = true := by
  cases a <;> simp_all [dle, disnan]

theorem dle_of_dlt (a b : DVal) (h : dlt a b = true) : dle a b = true := by
  cases a <;> cases b <;> simp_all [dlt, dle] <;> linarith

theorem dlt_true_notnan (a b : DVal) (h : dlt a b = true) :
    disnan a = false ∧ disnan b = false := by
  cases a <;> cases b <;> simp_all [dlt, disnan]

theorem dle_of_not_dlt (a b : DVal) (ha : disnan a = false) (hb : disnan b = false)
    (h : dlt a b = false) : dle b a = true := by
  cases a <;> cases b <;> simp_all [dlt, dle, disnan] <;> linarith

theorem dle_trans (a b c : DVal) (h1 : dle a b = true) (h2 : dle b c = true) :
    dle a c = true := by
  cases a <;> cases b <;> cases c <;> simp_all [dle] <;> linarith

theorem fitMinStep_notnan (m v : DVal) (h : disnan m = false) :
    disnan (fitMinStep m v) = false := by
  unfold fitMinStep
  cases hc : dlt v m with
  | true => simpa using (dlt_true_notnan v m hc).1
  | false => simpa using h

theorem fitMaxStep_notnan (m v : DVal) (h : disnan m = false) :
    disnan (fitMaxStep m v) = false := by
  unfold fitMaxStep
  cases hc : dlt m v with
  | true => simpa using (dlt_true_notnan m v hc).2
  | false => simpa using h

theorem foldMin_notnan (l : List DVal) :
    ∀ m0, disnan m0 = false → disnan (l.foldl fitMinStep m0) = false := by
  induction l with
  | nil => intro m0 h; simpa using h
  | cons a l ih => intro m0 h; exact ih _ (fitMinStep_notnan m0 a h)

theorem foldMax_notnan (l : List DVal) :
    ∀ m0, disnan m0 = false → disnan (l.foldl fitMaxStep m0) = false := by
  induction l with
  | nil => intro m0 h; simpa using h
  | cons a l ih => intro m0 h; exact ih _ (fitMaxStep_notnan m0 a h)

theorem foldMin_le_init (l : List DVal) :
    ∀ m0, disnan m0 = false → dle (l.foldl fitMinStep m0) m0 = true := by
  induction l with
  | nil => intro m0 h; exact dle_refl_of_notnan m0 h
  | cons a l ih =>
    intro m0 h
    have h1 : disnan (fitMinStep m0 a) = false := fitMinStep_notnan m0 a h
    have h2 : dle (fitMinStep m0 a) m0 = true := by
      unfold fitMinStep
      cases hc : dlt a m0 with
      | true => simpa using dle_of_dlt a m0 hc
      | false => simpa using dle_refl_of_notnan m0 h
    exact dle_trans _ _ _ (ih _ h1) h2

theorem foldMax_ge_init (l : List DVal) :
    ∀ m0, disnan m0 = false → dle m0 (l.foldl fitMaxStep m0) = true := by
  induction l with
  | nil => intro m0 h; exact dle_refl_of_notnan m0 h
  | cons a l ih =>
    intro m0 h
    have h1 : disnan (fitMaxStep m0 a) = false := fitMaxStep_notnan m0 a h
    have h2 : dle m0 (fitMaxStep m0 a) = true := by
      unfold fitMaxStep
      cases hc : dlt m0 a with
      | true => simpa using dle_of_dlt m0 a hc
      | false => simpa using dle_refl_of_notnan m0 h
    exact dle_trans _ _ _ h2 (ih _ h1)

/-- The final running minimum is at most every non-NaN element scanned. -/
theorem foldMin_le_mem (l : List DVal) :
    ∀ m0 v, disnan m0 = false → v ∈ l → disnan v = false →
      dle (l.foldl fitMinStep m0) v = true := by
  induction l with
  | nil => intro m0 v _ hv; simp at hv
  | cons a l ih =>
    intro m0 v h hv hnn
    have h1 : disnan (fitMinStep m0 a) = false := fitMinStep_notnan m0 a h
    rcases List.mem_cons.1 hv with rfl | hv
    · have h2 : dle (fitMinStep m0 v) v = true := by
        unfold fitMinStep
        cases hc : dlt v m0 with
        | true => simpa using dle_refl_of_notnan v hnn
        | false => simpa using dle_of_not_dlt v m0 hnn h hc
      exact dle_trans _ _ _ (foldMin_le_init l _ h1) h2
    · exact ih _ v h1 hv hnn

/-- The final running maximum is at least every non-NaN element scanned. -/
theorem foldMax_ge_mem (l : List DVal) :
    ∀ m0 v, disnan m0 = false → v ∈ l → disnan v = false →
      dle v (l.foldl fitMaxStep m0) = true := by
  induction l with
  | nil => intro m0 v _ hv; simp at hv
  | cons a l ih =>
    intro m0 v h hv hnn
    have h1 : disnan (fitMaxStep m0 a) = false := fitMaxStep_notnan m0 a h
    rcases List.mem_cons.1 hv with rfl | hv
    · have h2 : dle v (fitMaxStep m0 v) = true := by
        unfold fitMaxStep
        cases hc : dlt m0 v with
        | true => simpa using dle_refl_of_notnan v hnn
        | false => simpa using dle_of_not_dlt m0 v h hnn hc
      exact dle_trans _ _ _ h2 (foldMax_ge_init l _ h1)
    · exact ih _ v h1 hv hnn

/-- C9, amended: after a `binary_fit` call on a non-empty input containing
at least one non-NaN value, the tokenizer is fitted and its stored bounds
satisfy `min <= max`. -/
theorem binary_fit_min_le_max (t : BinaryTokenizer) (values : List DVal)
    (v : DVal) (hv : v ∈ values) (hnn : disnan v = false) :
    (binary_fit t values).fitted = true ∧
    dle (binary_fit t values).min_val (binary_fit t values).max_val = true := by
  have hne : values ≠ [] := by rintro rfl; simp at hv
  simp only [binary_fit, if_neg hne]
  refine ⟨trivial, ?_⟩
  exact dle_trans _ _ _
    (foldMin_le_mem values (.fin dblMax) v rfl hv hnn)
    (foldMax_ge_mem values (.fin (-dblMax)) v rfl hv hnn)

/-- Witness for `binary_fit_min_le_max`: fit on `[2, NaN]`. -/
theorem binary_fit_min_le_max_witness :
    (binary_fit (binary_init 8) [.fin 2, .nan]).fitted = true ∧
    dle (binary_fit (binary_init 8) [.fin 2, .nan]).min_val
      (binary_fit (binary_init 8) [.fin 2, .nan]).max_val = true :=
  binary_fit_min_le_max (binary_init 8) [.fin 2, .nan] (.fin 2) (by simp) rfl

/-- C9, counterexample: fitting on the non-empty all-NaN input `[NaN]`
leaves the tokenizer fitted with `min = DBL_MAX` and `max = -DBL_MAX`,
so the claimed invariant `min <= max` fails. -/
theorem binary_fit_min_le_max_counterexample :
    (binary_fit (binary_init 8) [.nan]).fitted = true ∧
    dle (binary_fit (binary_init 8) [.nan]).min_val
      (binary_fit (binary_init 8) [.nan]).max_val = false := by
  have hT : binary_fit (binary_init 8) [.nan]
      = ⟨8, .fin dblMax, .fin (-dblMax), true⟩ := by
    simp [binary_fit, binary_init, fitMinStep, fitMaxStep, dlt]
  constructor
  · rw [hT]
  · rw [hT]
    simp only [dle, decide_eq_false_iff_not, not_le, dblMax]
    norm_num

/-! ## CategoryTokenizer (src/unnamed/part_001) -/

/-- C `strcmp` (three-way) on byte strings: lexicographic byte order. -/
def strcmp3 : List ℕ → List ℕ → Ordering
  | [], [] => .eq
  | [], _ :: _ => .lt
  | _ :: _, [] => .gt
  | a :: as, b :: bs =>
    if a < b then .lt else if b < a then .gt else strcmp3 as bs

/-- The deduplication loop of `category_fit`: keep each string the first
time it is seen (scan of `values` against the accumulated `unique` array). -/
def dedupAux (acc : List (List ℕ)) : List (List ℕ) → List (List ℕ)
  | [] => acc
  | v :: rest => if v ∈ acc then dedupAux acc rest else dedupAux (acc ++ [v]) rest

def dedupKeepFirst (l : List (List ℕ)) : List (List ℕ) := dedupAux [] l

/-- One insertion step of the sort modelling `qsort(..., compare_strings)`:
place `x` after every element it compares greater than. -/
def insertStr (x : List ℕ) : List (List ℕ) → List (List ℕ)
  | [] => [x]
  | y :: ys => if strcmp3 x y = .gt then y :: insertStr x ys else x :: y :: ys

/-- Model of `qsort(unique, unique_count, sizeof(char*), compare_strings)`:
a comparison sort with the `strcmp` comparator.  On the duplicate-free keys
produced by the dedup scan the sorted permutation is unique, so any
comparison sort models `qsort` faithfully. -/
def sortStrings : List (List ℕ) → List (List ℕ)
  | [] => []
  | x :: xs => insertStr x (sortStrings xs)

structure CategoryTokenizer where
  categories : List (List ℕ)
  fitted : Bool
deriving DecidableEq

/-- `category_init`. -/
def category_init : CategoryTokenizer := { categories := [], fitted := false }

/-- `category_fit`: unfits on empty input, otherwise stores the
deduplicated, sorted vocabulary and marks the tokenizer fitted. -/
def category_fit (t : CategoryTokenizer) (values : List (List ℕ)) : CategoryTokenizer :=
  if values = [] then { t with fitted := false }
  else { categories := sortStrings (dedupKeepFirst values), fitted := true }

/-- The binary-search loop of `category_encode`:
`low`/`high` are C `int`s, `mid = low + (high - low) / 2`, and a hit
returns `mid + 2`; falling out of the loop returns `1`. -/
def bsearch (cats : List (List ℕ)) (value : List ℕ) (low high : ℤ) : ℤ :=
  if low ≤ high then
    let mid := low + Int.tdiv (high - low) 2
    match strcmp3 value (cats.getD mid.toNat []) with
    | .eq => mid + 2
    | .lt => bsearch cats value low (mid - 1)
    | .gt => bsearch cats value (mid + 1) high
  else 1
termination_by (high + 1 - low).toNat
decreasing_by
  all_goals
    rename_i h
    have h2 : Int.tdiv (high - low) 2 = (((high - low).toNat / 2 : ℕ) : ℤ) := by
      rw [show high - low = (((high - low).toNat : ℕ) : ℤ) by omega]; rfl
    omega

/-- `category_encode`: `-2` when unfitted, `-1` for NULL (`none`) or the
empty string, otherwise binary search over the vocabulary (hit: index + 2,
miss: `1`). -/
def category_encode (t : CategoryTokenizer) (value : Option (List ℕ)) : ℤ :=
  if !t.fitted then -2
  else
    match value with
    | none => -1
    | some v =>
      if v = [] then -1
      else bsearch t.categories v 0 ((t.categories.length : ℤ) - 1)

/-- `category_decode`. -/
def category_decode (t : CategoryTokenizer) (token : ℤ) : List ℕ :=
  if !t.fitted then strBytes "__not_fitted__"
  else if token = 0 then strBytes "__missing__"
  else if token = 1 then strBytes "__unknown__"
  else if token - 2 < 0 ∨ (t.categories.length : ℤ) ≤ token - 2 then strBytes "__invalid__"
  else t.categories.getD (token - 2).toNat []

/-! ## Facts about `strcmp3` -/

theorem strcmp3_eq_iff : ∀ a b : List ℕ, strcmp3 a b = .eq ↔ a = b := by
  intro a
  induction a with
  | nil => intro b; cases b <;> simp [strcmp3]
  | cons x as ih =>
    intro b
    cases b with
    | nil => simp [strcmp3]
    | cons y bs =>
      simp only [strcmp3]
      by_cases h1 : x < y
      · rw [if_pos h1]
        constructor
        · intro hc; cases hc
        · rintro h; injection h with h h; omega
      · rw [if_neg h1]
        by_cases h2 : y < x
        · rw [if_pos h2]
          constructor
          · intro hc; cases hc
          · rintro h; injection h with h h; omega
        · rw [if_neg h2]
          have hxy : x = y := by omega
          subst hxy
          rw [ih bs]
          constructor
          · rintro rfl; rfl
          · rintro h; injection h

theorem strcmp3_self (a : List ℕ) : strcmp3 a a = .eq := (strcmp3_eq_iff a a).2 rfl

theorem strcmp3_gt_iff : ∀ a b : List ℕ, strcmp3 a b = .gt ↔ strcmp3 b a = .lt := by
  intro a
  induction a with
  | nil => intro b; cases b <;> simp [strcmp3]
  | cons x as ih =>
    intro b
    cases b with
    | nil => simp [strcmp3]
    | cons y bs =>
      simp only [strcmp3]
      by_cases h1 : x < y
      · rw [if_pos h1, if_neg (by omega : ¬ y < x), if_pos h1]
        constructor <;> (intro hc; cases hc)
      · rw [if_neg h1]
        by_cases h2 : y < x
        · rw [if_pos h2, if_pos h2]
          simp
        · rw [if_neg h2, if_neg h2, if_neg h1]
          exact ih bs

theorem strcmp3_lt_trans :
    ∀ a b c : List ℕ, strcmp3 a b = .lt → strcmp3 b c = .lt → strcmp3 a c = .lt := by
  intro a
  induction a with
  | nil =>
    intro b c h1 h2
    cases b with
    | nil => cases h1
    | cons y bs =>
      cases c with
      | nil => cases h2
      | cons z cs => rfl
  | cons x as ih =>
    intro b c h1 h2
    cases b with
    | nil => cases h1
    | cons y bs =>
      cases c with
      | nil => cases h2
      | cons z cs =>
        simp only [strcmp3] at h1 h2 ⊢
        by_cases hxy : x < y
        · by_cases hyz : y < z
          · rw [if_pos (by omega : x < z)]
          · rw [if_neg hyz] at h2
            by_cases hzy : z < y
            · rw [if_pos hzy] at h2; cases h2
            · rw [if_pos (by omega : x < z)]
        · rw [if_neg hxy] at h1
          by_cases hyx : y < x
          · rw [if_pos hyx] at h1; cases h1
          · rw [if_neg hyx] at h1
            by_cases hyz : y < z
            · rw [if_pos (by omega : x < z)]
            · rw [if_neg hyz] at h2
              by_cases hzy : z < y
              · rw [if_pos hzy] at h2; cases h2
              · rw [if_neg hzy] at h2
                rw [if_neg (by omega : ¬ x < z), if_neg (by omega : ¬ z < x)]
                exact ih bs cs h1 h2

theorem strcmp3_ne_gt_iff (a b : List ℕ) :
    strcmp3 a b ≠ .gt ↔ (strcmp3 a b = .lt ∨ a = b) := by
  rcases h : strcmp3 a b with _ | _ | _
  · simp
  · simp [(strcmp3_eq_iff a b).1 h]
  · constructor
    · intro hc; exact absurd rfl hc
    · rintro (hc | rfl)
      · cases hc
      · rw [strcmp3_self] at h; cases h

theorem strcmp3_le_trans (a b c : List ℕ)
    (h1 : strcmp3 a b ≠ .gt) (h2 : strcmp3 b c ≠ .gt) : strcmp3 a c ≠ .gt := by
  rw [strcmp3_ne_gt_iff] at h1 h2 ⊢
  rcases h1 with h1 | rfl
  · rcases h2 with h2 | rfl
    · exact Or.inl (strcmp3_lt_trans a b c h1 h2)
    · exact Or.inl h1
  · exact h2

/-! ## Facts about the dedup scan and the sort -/

theorem dedupAux_nodup : ∀ (l acc : List (List ℕ)), acc.Nodup → (dedupAux acc l).Nodup := by
  intro l
  induction l with
  | nil => intro acc h; exact h
  | cons v rest ih =>
    intro acc h
    simp only [dedupAux]
    by_cases hv : v ∈ acc
    · rw [if_pos hv]; exact ih acc h
    · rw [if_neg hv]
      refine ih _ ?_
      simp [List.nodup_append, h, hv]

theorem dedupKeepFirst_nodup (l : List (List ℕ)) : (dedupKeepFirst l).Nodup :=
  dedupAux_nodup l [] List.nodup_nil

theorem insertStr_perm (x : List ℕ) : ∀ l, List.Perm (insertStr x l) (x :: l) := by
  intro l
  induction l with
  | nil => rfl
  | cons y ys ih =>
    simp only [insertStr]
    by_cases h : strcmp3 x y = .gt
    · rw [if_pos h]
      exact (ih.cons y).trans (List.Perm.swap x y ys)
    · rw [if_neg h]

theorem sortStrings_perm : ∀ l : List (List ℕ), List.Perm (sortStrings l) l := by
  intro l
  induction l with
  | nil => rfl
  | cons x xs ih => exact (insertStr_perm x (sortStrings xs)).trans (ih.cons x)

theorem insertStr_sorted (x : List ℕ) :
    ∀ l, l.Pairwise (fun a b => strcmp3 a b ≠ .gt) →
      (insertStr x l).Pairwise (fun a b => strcmp3 a b ≠ .gt) := by
  intro l
  induction l with
  | nil => intro _; simp [insertStr]
  | cons y ys ih =>
    intro h
    rw [List.pairwise_cons] at h
    obtain ⟨hy, hys⟩ := h
    simp only [insertStr]
    by_cases hg : strcmp3 x y = .gt
    · rw [if_pos hg]
      rw [List.pairwise_cons]
      refine ⟨?_, ih hys⟩
      intro a ha
      have ha' : a = x ∨ a ∈ ys := by
        have := (insertStr_perm x ys).mem_iff.1 ha
        simpa using this
      rcases ha' with rfl | ha'
      · rw [strcmp3_ne_gt_iff]
        exact Or.inl ((strcmp3_gt_iff a y).1 hg)
      · exact hy a ha'
    · rw [if_neg hg]
      rw [List.pairwise_cons]
      refine ⟨?_, List.pairwise_cons.2 ⟨hy, hys⟩⟩
      intro a ha
      rcases List.mem_cons.1 ha with rfl | ha
      · exact hg
      · exact strcmp3_le_trans x y a hg (hy a ha)

theorem sortStrings_sorted :
    ∀ l : List (List ℕ), (sortStrings l).Pairwise (fun a b => strcmp3 a b ≠ .gt) := by
  intro l
  induction l with
  | nil => simp [sortStrings]
  | cons x xs ih => exact insertStr_sorted x (sortStrings xs) ih

/-- On duplicate-free input the sorted vocabulary is strictly increasing. -/
theorem sortStrings_strict (l : List (List ℕ)) (h : l.Nodup) :
    (sortStrings l).Pairwise (fun a b => strcmp3 a b = .lt) := by
  have hnd : (sortStrings l).Nodup := (sortStrings_perm l).nodup_iff.2 h
  have hs := sortStrings_sorted l
  have := List.Pairwise.and hs hnd
  refine this.imp ?_
  rintro a b ⟨hab, hne⟩
  rcases (strcmp3_ne_gt_iff a b).1 hab with hlt | rfl
  · exact hlt
  · exact absurd rfl hne

/-! ## Correctness of the binary search -/

theorem tdiv2_toNat (a : ℤ) (h : 0 ≤ a) : Int.tdiv a 2 = ((a.toNat / 2 : ℕ) : ℤ) := by
  rw [show a = ((a.toNat : ℕ) : ℤ) by omega]; rfl

theorem getD_of_lt (cats : List (List ℕ)) (k : ℕ) (hk : k < cats.length) :
    cats.getD k [] = cats.get ⟨k, hk⟩ := by
  simp [List.getD_eq_getElem?_getD, List.getElem?_eq_getElem hk, List.get_eq_getElem]

/-- If `value` sits at index `i` of the strictly sorted vocabulary and
`[low, high]` brackets `i`, the search returns `i + 2`. -/
theorem bsearch_found (cats : List (List ℕ)) (value : List ℕ)
    (hs : cats.Pairwise (fun a b => strcmp3 a b = .lt)) (low high : ℤ) :
    ∀ (i : ℕ) (hi : i < cats.length), cats.get ⟨i, hi⟩ = value →
      0 ≤ low → low ≤ (i : ℤ) → (i : ℤ) ≤ high → high < (cats.length : ℤ) →
      bsearch cats value low high = (i : ℤ) + 2 := by
  induction low, high using bsearch.induct cats value with
  | case1 low high hlh mid heq =>
    intro i hi hv h0 hli hih hhl
    have htd := tdiv2_toNat (high - low) (by omega)
    have hmid : low ≤ mid ∧ mid ≤ high := by constructor <;> omega
    have hmlen : mid.toNat < cats.length := by omega
    rw [getD_of_lt cats mid.toNat hmlen] at heq
    have hveq : value = cats.get ⟨mid.toNat, hmlen⟩ := (strcmp3_eq_iff _ _).1 heq
    have himid : i = mid.toNat := by
      by_contra hne
      rcases Nat.lt_or_ge i mid.toNat with hlt | hge
      · have hp := List.pairwise_iff_get.1 hs ⟨i, hi⟩ ⟨mid.toNat, hmlen⟩ hlt
        rw [hv, ← hveq, strcmp3_self] at hp
        cases hp
      · have hlt2 : mid.toNat < i := by omega
        have hp := List.pairwise_iff_get.1 hs ⟨mid.toNat, hmlen⟩ ⟨i, hi⟩ hlt2
        rw [hv] at hp
        rw [← hveq] at hp
        rw [strcmp3_self] at hp
        cases hp
    rw [bsearch, if_pos hlh]
    simp only [getD_of_lt cats mid.toNat hmlen, heq]
    omega
  | case2 low high hlh mid hlt ih =>
    intro i hi hv h0 hli hih hhl
    have htd := tdiv2_toNat (high - low) (by omega)
    have hmid : low ≤ mid ∧ mid ≤ high := by constructor <;> omega
    have hmlen : mid.toNat < cats.length := by omega
    rw [getD_of_lt cats mid.toNat hmlen] at hlt
    have hile : i < mid.toNat := by
      by_contra hge
      rcases Nat.eq_or_lt_of_le (Nat.le_of_not_lt hge) with heq2 | hlt2
      · have hfin : (⟨mid.toNat, hmlen⟩ : Fin cats.length) = ⟨i, hi⟩ := Fin.ext heq2
        rw [hfin, hv, strcmp3_self] at hlt
        cases hlt
      · have hp := List.pairwise_iff_get.1 hs ⟨mid.toNat, hmlen⟩ ⟨i, hi⟩ hlt2
        rw [hv] at hp
        have hg := (strcmp3_gt_iff value (cats.get ⟨mid.toNat, hmlen⟩)).2 hp
        rw [hg] at hlt
        cases hlt
    rw [bsearch, if_pos hlh]
    simp only [getD_of_lt cats mid.toNat hmlen, hlt]
    exact ih i hi hv h0 hli (by omega) (by omega)
  | case3 low high hlh mid hgt ih =>
    intro i hi hv h0 hli hih hhl
    have htd := tdiv2_toNat (high - low) (by omega)
    have hmid : low ≤ mid ∧ mid ≤ high := by constructor <;> omega
    have hmlen : mid.toNat < cats.length := by omega
    rw [getD_of_lt cats mid.toNat hmlen] at hgt
    have hile : mid.toNat < i := by
      by_contra hge
      rcases Nat.eq_or_lt_of_le (Nat.le_of_not_lt hge) with heq2 | hlt2
      · have hfin : (⟨mid.toNat, hmlen⟩ : Fin cats.length) = ⟨i, hi⟩ := Fin.ext heq2.symm
        rw [hfin, hv, strcmp3_self] at hgt
        cases hgt
      · have hp := List.pairwise_iff_get.1 hs ⟨i, hi⟩ ⟨mid.toNat, hmlen⟩ hlt2
        rw [hv] at hp
        rw [hp] at hgt
        cases hgt
    rw [bsearch, if_pos hlh]
    simp only [getD_of_lt cats mid.toNat hmlen, hgt]
    exact ih i hi hv (by omega) (by omega) hih hhl
  | case4 low high hnle =>
    intro i hi hv h0 hli hih hhl
    omega

/-- If `value` is not in the vocabulary at all, the search returns `1`. -/
theorem bsearch_not_found (cats : List (List ℕ)) (value : List ℕ)
    (hnm : value ∉ cats) (low high : ℤ) :
    0 ≤ low → high < (cats.length : ℤ) → bsearch cats value low high = 1 := by
  induction low, high using bsearch.induct cats value with
  | case1 low high hlh mid heq =>
    intro h0 hhl
    have htd := tdiv2_toNat (high - low) (by omega)
    have hmid : low ≤ mid ∧ mid ≤ high := by constructor <;> omega
    have hmlen : mid.toNat < cats.length := by omega
    rw [getD_of_lt cats mid.toNat hmlen] at heq
    have hveq : value = cats.get ⟨mid.toNat, hmlen⟩ := (strcmp3_eq_iff _ _).1 heq
    exact absurd (hveq ▸ List.get_mem cats mid.toNat hmlen) hnm
  | case2 low high hlh mid hlt ih =>
    intro h0 hhl
    have htd := tdiv2_toNat (high - low) (by omega)
    have hmid : low ≤ mid ∧ mid ≤ high := by constructor <;> omega
    have hmlen : mid.toNat < cats.length := by omega
    rw [bsearch, if_pos hlh]
    simp only [getD_of_lt cats mid.toNat hmlen] at hlt
    simp only [getD_of_lt cats mid.toNat hmlen, hlt]
    exact ih h0 (by omega)
  | case3 low high hlh mid hgt ih =>
    intro h0 hhl
    have htd := tdiv2_toNat (high - low) (by omega)
    have hmid : low ≤ mid ∧ mid ≤ high := by constructor <;> omega
    rw [bsearch, if_pos hlh]
    simp only [hgt]
    exact ih (by omega) hhl
  | case4 low high hnle =>
    intro h0 hhl
    rw [bsearch, if_neg hnle]

/-- After a non-empty `category_fit` the tokenizer is fitted and the stored
vocabulary is the deduplicated input in strictly increasing `strcmp` order. -/
theorem category_fit_spec (t : CategoryTokenizer) (values : List (List ℕ))
    (hne : values ≠ []) :
    (category_fit t values).fitted = true ∧
    (category_fit t values).categories.Pairwise (fun a b => strcmp3 a b = .lt) := by
  simp only [category_fit, if_neg hne]
  exact ⟨trivial, sortStrings_strict _ (dedupKeepFirst_nodup values)⟩

/-- C3, amended: for a vocabulary built by `category_fit` and any
non-empty string `s` in it, `decode (encode s) = s`. -/
theorem category_roundtrip (t0 : CategoryTokenizer) (values : List (List ℕ))
    (hne : values ≠ []) (s : List ℕ) (hs : s ∈ (category_fit t0 values).categories)
    (hsne : s ≠ []) :
    category_decode (category_fit t0 values)
      (category_encode (category_fit t0 values) (some s)) = s := by
  obtain ⟨hfit, hstrict⟩ := category_fit_spec t0 values hne
  obtain ⟨⟨i, hi⟩, hgi⟩ := List.mem_iff_get.1 hs
  have henc : category_encode (category_fit t0 values) (some s) = (i : ℤ) + 2 := by
    simp only [category_encode, hfit, Bool.not_true, Bool.false_eq_true, if_false, if_neg hsne]
    exact bsearch_found _ s hstrict 0 ((category_fit t0 values).categories.length - 1)
      i hi hgi le_rfl (by omega) (by omega) (by omega)
  rw [henc]
  simp only [category_decode, hfit, Bool.not_true, Bool.false_eq_true, if_false]
  rw [if_neg (by omega : ¬ ((i : ℤ) + 2 = 0)), if_neg (by omega : ¬ ((i : ℤ) + 2 = 1)),
    if_neg (by push_neg; omega)]
  rw [show (i : ℤ) + 2 - 2 = (i : ℤ) by ring]
  rw [show ((i : ℤ)).toNat = i from Int.toNat_natCast i]
  rw [getD_of_lt _ i hi]
  exact hgi

/-- Witness for `category_roundtrip`: vocabulary built from
`["red", "green", "blue"]`, round trip of `"green"`. -/
theorem category_roundtrip_witness :
    category_decode (category_fit category_init [strBytes "red", strBytes "green", strBytes "blue"])
      (category_encode (category_fit category_init [strBytes "red", strBytes "green", strBytes "blue"])
        (some (strBytes "green"))) = strBytes "green" :=
  category_roundtrip category_init [strBytes "red", strBytes "green", strBytes "blue"]
    (by decide) (strBytes "green") (by decide) (by decide)

/-- C3, counterexample: if the fitted vocabulary contains the empty string,
the empty string is a vocabulary member whose round trip yields
`"__invalid__"` instead of itself, refuting the claim as stated. -/
theorem category_roundtrip_counterexample :
    (([] : List ℕ) ∈ (category_fit category_init [[]]).categories) ∧
    category_decode (category_fit category_init [[]])
      (category_encode (category_fit category_init [[]]) (some ([] : List ℕ)))
      = strBytes "__invalid__" ∧
    strBytes "__invalid__" ≠ ([] : List ℕ) := by
  refine ⟨by decide, by decide, by decide⟩

/-- C4, amended: `category_encode` returns `-2` whenever the tokenizer is
unfitted (whatever the input); on a fitted tokenizer it returns `-1` for a
NULL or empty input, `1` for a non-empty string missing from the
vocabulary, and the vocabulary index plus 2 for a vocabulary member. -/
theorem category_encode_cases :
    (∀ t value, t.fitted = false → category_encode t value = -2) ∧
    (∀ t, t.fitted = true →
      category_encode t none = -1 ∧ category_encode t (some []) = -1) ∧
    (∀ t0 values s, values ≠ [] → s ∉ (category_fit t0 values).categories →
      s ≠ [] → category_encode (category_fit t0 values) (some s) = 1) ∧
    (∀ t0 values s (i : ℕ) (hi : i < (category_fit t0 values).categories.length),
      values ≠ [] → (category_fit t0 values).categories.get ⟨i, hi⟩ = s → s ≠ [] →
      category_encode (category_fit t0 values) (some s) = (i : ℤ) + 2) := by
  refine ⟨?_, ?_, ?_, ?_⟩
  · intro t value h
    simp [category_encode, h]
  · intro t h
    constructor <;> simp [category_encode, h]
  · intro t0 values s hne hnm hsne
    have hfit := (category_fit_spec t0 values hne).1
    simp only [category_encode, hfit, Bool.not_true, Bool.false_eq_true, if_false, if_neg hsne]
    exact bsearch_not_found _ s hnm 0 _ le_rfl (by omega)
  · intro t0 values s i hi hne hgi hsne
    have hspec := category_fit_spec t0 values hne
    simp only [category_encode, hspec.1, Bool.not_true, Bool.false_eq_true, if_false,
      if_neg hsne]
    exact bsearch_found _ s hspec.2 0 ((category_fit t0 values).categories.length - 1)
      i hi hgi le_rfl (by omega) (by omega) (by omega)

/-- Witness for `category_encode_cases` on the vocabulary built from
`["b", "a"]` (sorted to `["a", "b"]`). -/
theorem category_encode_cases_witness :
    category_encode category_init (some (strBytes "a")) = -2 ∧
    category_encode (category_fit category_init [strBytes "b", strBytes "a"]) none = -1 ∧
    category_encode (category_fit category_init [strBytes "b", strBytes "a"]) (some []) = -1 ∧
    category_encode (category_fit category_init [strBytes "b", strBytes "a"])
      (some (strBytes "c")) = 1 ∧
    category_encode (category_fit category_init [strBytes "b", strBytes "a"])
      (some (strBytes "b")) = (1 : ℤ) + 2 :=
  ⟨category_encode_cases.1 category_init (some (strBytes "a")) rfl,
   (category_encode_cases.2.1 _ (by decide)).1,
   (category_encode_cases.2.1 _ (by decide)).2,
   category_encode_cases.2.2.1 category_init [strBytes "b", strBytes "a"] (strBytes "c")
     (by decide) (by decide) (by decide),
   category_encode_cases.2.2.2 category_init [strBytes "b", strBytes "a"] (strBytes "b")
     1 (by decide) (by decide) (by decide) (by decide)⟩

/-- C4, counterexample: on a fitted tokenizer the empty string encodes to
`-1`, not the claimed `0`; on an unfitted tokenizer encode returns `-2`,
not the claimed `1`. -/
theorem category_encode_counterexample :
    category_encode (category_fit category_init [strBytes "a"]) (some []) = -1 ∧
    (-1 : ℤ) ≠ 0 ∧
    category_encode category_init (some (strBytes "a")) = -2 ∧
    (-2 : ℤ) ≠ 1 := by
  refine ⟨by decide, by decide, by decide, by decide⟩

/-! ## TimestampTokenizer (src/src/timestamp.c)

Variant 1 (lines 1-153 of the file) is embedded as `timestamp_parse` /
`timestamp_encode` / `timestamp_decode`; the second, bucket-layout variant
is embedded as `timestamp_parse2` / `timestamp_encode2`.  Bytes are plain
numbers (`'0' = 48`, `'-' = 45`, `'T' = 84`, `' ' = 32`, `':' = 58`). -/

/-- The low `w` decimal digits of `n`, zero padded, most significant
first (digit at position `k` is `n / 10^k % 10`). -/
def padDec : ℕ → ℕ → List ℕ
  | 0, _ => []
  | w + 1, n => (48 + n / 10 ^ w % 10) :: padDec w n

/-- Full decimal representation (fuel-driven helper). -/
def fullDecAux : ℕ → ℕ → List ℕ
  | 0, _ => []
  | fuel + 1, n => if n < 10 then [48 + n] else fullDecAux fuel (n / 10) ++ [48 + n % 10]

def fullDec (n : ℕ) : List ℕ := fullDecAux (n + 1) n

/-- `printf("%0wd", n)` for `n >= 0`: zero-padded to width `w` when `n`
fits in `w` digits, otherwise the full decimal expansion. -/
def fmtNat (w n : ℕ) : List ℕ := if n < 10 ^ w then padDec w n else fullDec n

/-- `printf("%0wd", v)`: for negative values the sign counts toward the
field width and the zero padding sits between the sign and the digits. -/
def fmtInt (w : ℕ) (v : ℤ) : List ℕ :=
  if v < 0 then 45 :: fmtNat (w - 1) v.natAbs else fmtNat w v.toNat

/-- Greedy bounded digit run of `sscanf("%wd")` after the first digit:
consume at most `w` further digits, accumulating the value. -/
def scanNum : ℕ → ℕ → List ℕ → ℕ × List ℕ
  | 0, acc, cs => (acc, cs)
  | _ + 1, acc, [] => (acc, [])
  | w + 1, acc, c :: cs =>
    if 48 ≤ c ∧ c ≤ 57 then scanNum w (acc * 10 + (c - 48)) cs else (acc, c :: cs)

/-- A `sscanf` `%wd` field: fails unless the input starts with a digit,
then consumes up to `w` digits.  (The whitespace/sign tolerance of `%d`
is not modelled; no claim depends on such inputs.) -/
def scanField (w : ℕ) : List ℕ → Option (ℕ × List ℕ)
  | [] => none
  | c :: cs => if 48 ≤ c ∧ c ≤ 57 then some (scanNum (w - 1) (c - 48) cs) else none

/-- Index of the first occurrence of byte `c` (C `strchr`). -/
def strchrIdx (c : ℕ) : List ℕ → Option ℕ
  | [] => none
  | b :: rest => if b = c then some 0 else (strchrIdx c rest).map (· + 1)

/-- The six `struct tm` components used by the tokenizer. -/
structure Tm where
  year : ℤ
  mon : ℤ
  mday : ℤ
  hour : ℤ
  min : ℤ
  sec : ℤ
deriving DecidableEq

/-- State of the first timestamp variant (its `timestamp_init` sets
`fitted = true` and stores the caller's `offset`). -/
structure TimestampTokenizer1 where
  min_year : ℤ
  max_year : ℤ
  fitted : Bool
  offset : ℤ
deriving DecidableEq

/-- Variant-1 `timestamp_parse`: locate the `'T'` (else `' '`) separator,
require a 10-byte date part, scan `%4d-%2d-%2d` and `%2d:%2d:%2d`, then
range-check every component.  The `%f` fractional-seconds fallback is not
modelled (no claim depends on it), and the scanned fields are digit runs,
so the negative-component checks of the C code cannot fire. -/
def timestamp_parse (t : TimestampTokenizer1) (iso : List ℕ) : Option Tm :=
  let sep? :=
    match strchrIdx 84 iso with
    | some k => some k
    | none => strchrIdx 32 iso
  match sep? with
  | none => none
  | some sep =>
    if sep ≠ 10 then none
    else
      match scanField 4 iso with
      | none => none
      | some (y, r1) =>
        match r1 with
        | 45 :: r2 =>
          match scanField 2 r2 with
          | none => none
          | some (mo, r3) =>
            match r3 with
            | 45 :: r4 =>
              match scanField 2 r4 with
              | none => none
              | some (d, _) =>
                match scanField 2 (iso.drop (sep + 1)) with
                | none => none
                | some (h, r6) =>
                  match r6 with
                  | 58 :: r7 =>
                    match scanField 2 r7 with
                    | none => none
                    | some (mi, r8) =>
                      match r8 with
                      | 58 :: r9 =>
                        match scanField 2 r9 with
                        | none => none
                        | some (s, _) =>
                          if (y : ℤ) < t.min_year ∨ t.max_year < (y : ℤ) ∨
                              mo < 1 ∨ 12 < mo ∨ d < 1 ∨ 31 < d ∨
                              23 < h ∨ 59 < mi ∨ 60 < s then none
                          else some ⟨y, mo, d, h, mi, s⟩
                      | _ => none
                  | _ => none
            | _ => none
        | _ => none

/-- Variant-1 `timestamp_encode`: on parse failure all six tokens are
`0 + offset`; on success the tokens are the cumulative sums starting at
`1 + (year - min_year) + offset`. -/
def timestamp_encode (t : TimestampTokenizer1) (iso : List ℕ) : List ℤ :=
  match timestamp_parse t iso with
  | none => [t.offset, t.offset, t.offset, t.offset, t.offset, t.offset]
  | some tm =>
    let t0 := 1 + (tm.year - t.min_year) + t.offset
    let t1 := t0 + (tm.mon - 1)
    let t2 := t1 + tm.mday
    let t3 := t2 + tm.hour
    let t4 := t3 + tm.min
    let t5 := t4 + tm.sec
    [t0, t1, t2, t3, t4, t5]

/-- The multiplicative positivity chain of variant-1 `timestamp_decode`:
`ok = tokens[0] - offset`, then `ok = ok * tokens[i] / tokens[i-1]` (C
`int` division, truncating toward zero) with an early exit as soon as
`ok <= 0`. -/
def tsValid (off : ℤ) (tok : ℕ → ℤ) : Bool :=
  let ok0 := tok 0 - off
  if ok0 ≤ 0 then false
  else
    let ok1 := Int.tdiv (ok0 * tok 1) (tok 0)
    if ok1 ≤ 0 then false
    else
      let ok2 := Int.tdiv (ok1 * tok 2) (tok 1)
      if ok2 ≤ 0 then false
      else
        let ok3 := Int.tdiv (ok2 * tok 3) (tok 2)
        if ok3 ≤ 0 then false
        else
          let ok4 := Int.tdiv (ok3 * tok 4) (tok 3)
          if ok4 ≤ 0 then false
          else
            let ok5 := Int.tdiv (ok4 * tok 5) (tok 4)
            decide (0 < ok5)

/-- Variant-1 `timestamp_decode`.  The C code's `count != 6` check is dead:
`valid` is unconditionally overwritten by `valid = (ok > 0)` on the next
line, so the model's validity is exactly the positivity chain.  The C code
always reads `tokens[0..5]` (an out-of-bounds read when fewer are passed);
the model reads them with `getD _ 0` and every theorem below applies it
only to lists of length at least 6. -/
def timestamp_decode (t : TimestampTokenizer1) (tokens : List ℤ) : List ℕ :=
  let tok := fun i => tokens.getD i 0
  if tsValid t.offset tok then
    fmtInt 4 (tok 0 - (1 - t.min_year + t.offset)) ++
      45 :: fmtInt 2 ((tok 1 - tok 0) + 1) ++
      45 :: fmtInt 2 (tok 2 - tok 1) ++
      84 :: fmtInt 2 (tok 3 - tok 2) ++
      58 :: fmtInt 2 (tok 4 - tok 3) ++
      58 :: fmtInt 2 (tok 5 - tok 4)
  else strBytes "__invalid__"

/-- State of the second timestamp variant (no `offset`). -/
structure TimestampTokenizer2 where
  min_year : ℤ
  max_year : ℤ
  fitted : Bool
deriving DecidableEq

/-- Unbounded greedy digit run (`sscanf` `%d` with no width). -/
def scanNumAll (acc : ℕ) : List ℕ → ℕ × List ℕ
  | [] => (acc, [])
  | c :: cs =>
    if 48 ≤ c ∧ c ≤ 57 then scanNumAll (acc * 10 + (c - 48)) cs else (acc, c :: cs)

def scanFieldAll : List ℕ → Option (ℕ × List ℕ)
  | [] => none
  | c :: cs => if 48 ≤ c ∧ c ≤ 57 then some (scanNumAll (c - 48) cs) else none

/-- Variant-2 `timestamp_parse`: `sscanf(iso, "%d-%d-%dT%d:%d:%d")`. -/
def timestamp_parse2 (iso : List ℕ) : Option Tm :=
  match scanFieldAll iso with
  | some (y, 45 :: r1) =>
    match scanFieldAll r1 with
    | some (mo, 45 :: r2) =>
      match scanFieldAll r2 with
      | some (d, 84 :: r3) =>
        match scanFieldAll r3 with
        | some (h, 58 :: r4) =>
          match scanFieldAll r4 with
          | some (mi, 58 :: r5) =>
            match scanFieldAll r5 with
            | some (s, _) => some ⟨y, mo, d, h, mi, s⟩
            | _ => none
          | _ => none
        | _ => none
      | _ => none
    | _ => none
  | _ => none

/-- Variant-2 `timestamp_encode`: fixed bucket bases 0/3/15/46/70/130 with
per-bucket invalid markers.  In the parse-failure branch the C code reads
the uninitialized `tokens[5]` (`tokens[5] = tokens[5] + 60`); the model
stands in `0` for the indeterminate prior value.  No theorem below uses
that branch. -/
def timestamp_encode2 (t : TimestampTokenizer2) (iso : List ℕ) : List ℤ :=
  match timestamp_parse2 iso with
  | none => [0, 15, 46, 70, 130, 0 + 60]
  | some tm =>
    [if tm.year < t.min_year then 0
     else if t.max_year < tm.year then 1
     else 2 + (tm.year - t.min_year),
     if tm.mon < 1 ∨ 12 < tm.mon then 3 + 12 else 3 + (tm.mon - 1),
     if tm.mday < 1 ∨ 31 < tm.mday then 3 + 12 + 31 else 3 + 12 + (tm.mday - 1),
     if tm.hour < 0 ∨ 24 ≤ tm.hour then 3 + 12 + 31 + 24 else 3 + 12 + 31 + tm.hour,
     if tm.min < 0 ∨ 60 ≤ tm.min then 3 + 12 + 31 + 24 + 60 else 3 + 12 + 31 + 24 + tm.min,
     if tm.sec < 0 ∨ 60 ≤ tm.sec then 3 + 12 + 31 + 24 + 60 + 60
     else 3 + 12 + 31 + 24 + 60 + tm.sec]

/-- C5 exhibit: for `min_year = 2000, max_year = 2030` the valid timestamp
`2002-01-01T00:00:00` receives, under the bucket-layout variant, the year
token `4`, which lies inside the month bucket (valid month tokens are
`3 + (month - 1)` for months 1..12, i.e. `3..14`); under the cumulative
variant the year token and the month token are the very same value, so
no disjoint-bucket reading is possible there either. -/
theorem timestamp_bucket_overlap :
    (timestamp_encode2 ⟨2000, 2030, true⟩ (strBytes "2002-01-01T00:00:00")
        = [4, 3, 15, 46, 70, 130] ∧
      (3 : ℤ) ≤ 4 ∧ (4 : ℤ) ≤ 3 + (12 - 1)) ∧
    (timestamp_encode ⟨2000, 2030, true, 0⟩ (strBytes "2002-01-01T00:00:00")
        = [3, 3, 4, 4, 4, 4] ∧
      (timestamp_encode ⟨2000, 2030, true, 0⟩ (strBytes "2002-01-01T00:00:00")).getD 0 0
        = (timestamp_encode ⟨2000, 2030, true, 0⟩ (strBytes "2002-01-01T00:00:00")).getD 1 0) := by
  exact ⟨⟨by decide, by decide, by decide⟩, by decide, by decide⟩

/-- C6: on any input the variant-1 parser rejects, encode emits exactly six
sentinel tokens (`0 + offset`, the per-bucket invalid value, which no valid
token can take since valid tokens all exceed `offset`), and decoding that
sentinel sequence yields `"__invalid__"`. -/
theorem timestamp_encode_parse_failure (t : TimestampTokenizer1) (iso : List ℕ)
    (hfail : timestamp_parse t iso = none) :
    timestamp_encode t iso = List.replicate 6 t.offset ∧
    timestamp_decode t (timestamp_encode t iso) = strBytes "__invalid__" := by
  have hE : timestamp_encode t iso
      = [t.offset, t.offset, t.offset, t.offset, t.offset, t.offset] := by
    simp [timestamp_encode, hfail]
  constructor
  · rw [hE]; rfl
  · rw [hE]
    have hv : tsValid t.offset
        (fun i => ([t.offset, t.offset, t.offset, t.offset, t.offset, t.offset] : List ℤ).getD i 0)
        = false := by
      simp [tsValid]
    simp only [timestamp_decode]
    rw [hv]
    simp

/-- Witness for `timestamp_encode_parse_failure` on `"not-a-date"`. -/
theorem timestamp_encode_parse_failure_witness :
    timestamp_encode ⟨2000, 2030, true, 0⟩ (strBytes "not-a-date")
      = List.replicate 6 (0 : ℤ) ∧
    timestamp_decode ⟨2000, 2030, true, 0⟩
      (timestamp_encode ⟨2000, 2030, true, 0⟩ (strBytes "not-a-date"))
      = strBytes "__invalid__" :=
  timestamp_encode_parse_failure ⟨2000, 2030, true, 0⟩ (strBytes "not-a-date") (by decide)

/-- C7 exhibit: the `count != 6` check of variant-1 decode is dead code
(the next statement unconditionally overwrites `valid`), so this 7-token
sequence decodes to a date string instead of the claimed `"__invalid__"`. -/
theorem timestamp_decode_count_check_dead :
    ([1, 1, 1, 1, 1, 1, 1] : List ℤ).length ≠ 6 ∧
    timestamp_decode ⟨2000, 2030, true, 0⟩ [1, 1, 1, 1, 1, 1, 1]
      = strBytes "2000-01-00T00:00:00" ∧
    strBytes "2000-01-00T00:00:00" ≠ strBytes "__invalid__" := by
  exact ⟨by decide, by decide, by decide⟩

/-! ## Digit formatting and scanning lemmas (for C2) -/

theorem padDec_length (w n : ℕ) : (padDec w n).length = w := by
  induction w generalizing n with
  | zero => rfl
  | succ w ih => simp [padDec, ih]

theorem padDec_digits (w n : ℕ) : ∀ x ∈ padDec w n, 48 ≤ x ∧ x ≤ 57 := by
  induction w generalizing n with
  | zero => intro x hx; cases hx
  | succ w ih =>
    intro x hx
    rcases List.mem_cons.1 hx with rfl | hx
    · have : n / 10 ^ w % 10 ≤ 9 := Nat.le_of_lt_succ (Nat.mod_lt _ (by omega))
      omega
    · exact ih n x hx

theorem scanNum_padDec (w : ℕ) :
    ∀ acc n rest, scanNum w acc (padDec w n ++ rest) = (acc * 10 ^ w + n % 10 ^ w, rest) := by
  induction w with
  | zero => intro acc n rest; simp [padDec, scanNum, Nat.mod_one]
  | succ w ih =>
    intro acc n rest
    have hd : n / 10 ^ w % 10 ≤ 9 := Nat.le_of_lt_succ (Nat.mod_lt _ (by omega))
    simp only [padDec, List.cons_append, scanNum, List.append_eq]
    rw [if_pos (by omega : 48 ≤ 48 + n / 10 ^ w % 10 ∧ 48 + n / 10 ^ w % 10 ≤ 57)]
    rw [show 48 + n / 10 ^ w % 10 - 48 = n / 10 ^ w % 10 by omega]
    rw [ih]
    have hmod : n % 10 ^ (w + 1) = n % 10 ^ w + 10 ^ w * (n / 10 ^ w % 10) := by
      rw [pow_succ]; exact Nat.mod_mul
    rw [hmod]
    congr 1
    ring

theorem scanField_padDec (w n : ℕ) (hw : 0 < w) (hn : n < 10 ^ w) (rest : List ℕ) :
    scanField w (padDec w n ++ rest) = some (n, rest) := by
  obtain ⟨u, rfl⟩ : ∃ u, w = u + 1 := ⟨w - 1, by omega⟩
  have hd : n / 10 ^ u % 10 ≤ 9 := Nat.le_of_lt_succ (Nat.mod_lt _ (by omega))
  simp only [padDec, List.cons_append, scanField]
  rw [if_pos (by omega : 48 ≤ 48 + n / 10 ^ u % 10 ∧ 48 + n / 10 ^ u % 10 ≤ 57)]
  rw [show (u + 1) - 1 = u by omega]
  rw [show 48 + n / 10 ^ u % 10 - 48 = n / 10 ^ u % 10 by omega]
  rw [scanNum_padDec]
  have hdiv : n / 10 ^ u < 10 := by
    rw [Nat.div_lt_iff_lt_mul (by positivity)]
    rw [pow_succ] at hn
    omega
  rw [Nat.mod_eq_of_lt hdiv]
  rw [show n / 10 ^ u * 10 ^ u + n % 10 ^ u = n by
    rw [Nat.mul_comm]; exact Nat.div_add_mod n (10 ^ u)]

theorem strchrIdx_exact (c : ℕ) :
    ∀ l r, (∀ x ∈ l, x ≠ c) → strchrIdx c (l ++ c :: r) = some l.length := by
  intro l
  induction l with
  | nil => intro r _; simp [strchrIdx]
  | cons b l ih =>
    intro r hb
    have hbc : b ≠ c := hb b (List.mem_cons_self b l)
    simp only [List.cons_append, strchrIdx, if_neg hbc, List.append_eq]
    rw [ih r (fun x hx => hb x (List.mem_cons_of_mem b hx))]
    rfl

/-- `fmtInt` at a small non-negative value is the zero-padded digit run. -/
theorem fmtInt_eq_padDec (w n : ℕ) (hn : n < 10 ^ w) :
    fmtInt w (n : ℤ) = padDec w n := by
  rw [fmtInt, if_neg (by omega : ¬ ((n : ℤ) < 0))]
  rw [show ((n : ℤ)).toNat = n from Int.toNat_natCast n]
  rw [fmtNat, if_pos hn]

/-- Positivity step of the decode chain: if `0 < ok`, `0 < p ≤ c` then the
truncating division `ok * c / p` is still positive. -/
theorem tdiv_chain_pos (ok p c : ℤ) (hok : 0 < ok) (hp : 0 < p) (hpc : p ≤ c) :
    0 < Int.tdiv (ok * c) p := by
  have hle : p ≤ ok * c := by nlinarith
  obtain ⟨a, ha⟩ : ∃ a : ℕ, ok * c = (a : ℤ) := ⟨(ok * c).toNat, by omega⟩
  obtain ⟨b, hb⟩ : ∃ b : ℕ, p = (b : ℤ) := ⟨p.toNat, by omega⟩
  rw [ha, hb]
  rw [show Int.tdiv (a : ℤ) (b : ℤ) = ((a / b : ℕ) : ℤ) from rfl]
  have hbpos : 0 < b := by omega
  have hba : b ≤ a := by omega
  have : 1 ≤ a / b := (Nat.le_div_iff_mul_le hbpos).2 (by omega)
  omega

/-- The canonical zero-padded `YYYY-MM-DDTHH:MM:SS` byte string. -/
def isoRender (y mo d h mi s : ℕ) : List ℕ :=
  padDec 4 y ++ (45 :: (padDec 2 mo ++ (45 :: (padDec 2 d ++
    (84 :: (padDec 2 h ++ (58 :: (padDec 2 mi ++ (58 :: padDec 2 s)))))))))

theorem isoRender_sep (y mo d h mi s : ℕ) :
    strchrIdx 84 (isoRender y mo d h mi s) = some 10 := by
  have hform : isoRender y mo d h mi s
      = (padDec 4 y ++ (45 :: (padDec 2 mo ++ (45 :: padDec 2 d)))) ++
        84 :: (padDec 2 h ++ (58 :: (padDec 2 mi ++ (58 :: padDec 2 s)))) := by
    simp [isoRender, List.append_assoc]
  rw [hform, strchrIdx_exact]
  · simp [padDec_length]
  · intro x hx
    simp only [List.mem_append, List.mem_cons] at hx
    rcases hx with hx | rfl | hx | rfl | hx
    · have := padDec_digits 4 y x hx; omega
    · omega
    · have := padDec_digits 2 mo x hx; omega
    · omega
    · have := padDec_digits 2 d x hx; omega

theorem isoRender_drop (y mo d h mi s : ℕ) :
    (isoRender y mo d h mi s).drop (10 + 1)
      = padDec 2 h ++ (58 :: (padDec 2 mi ++ (58 :: padDec 2 s))) := by
  have hform : isoRender y mo d h mi s
      = (padDec 4 y ++ (45 :: (padDec 2 mo ++ (45 :: (padDec 2 d ++ [84]))))) ++
        (padDec 2 h ++ (58 :: (padDec 2 mi ++ (58 :: padDec 2 s)))) := by
    simp [isoRender, List.append_assoc]
  rw [hform]
  exact List.drop_left' (by simp [padDec_length])

/-- Variant-1 parse succeeds on the canonical rendering of in-range
components and recovers exactly those components. -/
theorem timestamp_parse_isoRender (t : TimestampTokenizer1) (y mo d h mi s : ℕ)
    (hy1 : t.min_year ≤ (y : ℤ)) (hy2 : (y : ℤ) ≤ t.max_year) (hy3 : y ≤ 9999)
    (hmo1 : 1 ≤ mo) (hmo2 : mo ≤ 12) (hd1 : 1 ≤ d) (hd2 : d ≤ 31)
    (hh : h ≤ 23) (hmi : mi ≤ 59) (hs : s ≤ 60) :
    timestamp_parse t (isoRender y mo d h mi s)
      = some ⟨(y : ℤ), (mo : ℤ), (d : ℤ), (h : ℤ), (mi : ℤ), (s : ℤ)⟩ := by
  have hp4 : (10 : ℕ) ^ 4 = 10000 := by norm_num
  have hp2 : (10 : ℕ) ^ 2 = 100 := by norm_num
  have h1 : scanField 4 (isoRender y mo d h mi s)
      = some (y, 45 :: (padDec 2 mo ++ (45 :: (padDec 2 d ++
          (84 :: (padDec 2 h ++ (58 :: (padDec 2 mi ++ (58 :: padDec 2 s))))))))) :=
    scanField_padDec 4 y (by omega) (by omega) _
  have h2 : scanField 2 (padDec 2 mo ++ (45 :: (padDec 2 d ++
        (84 :: (padDec 2 h ++ (58 :: (padDec 2 mi ++ (58 :: padDec 2 s))))))))
      = some (mo, 45 :: (padDec 2 d ++
          (84 :: (padDec 2 h ++ (58 :: (padDec 2 mi ++ (58 :: padDec 2 s))))))) :=
    scanField_padDec 2 mo (by omega) (by omega) _
  have h3 : scanField 2 (padDec 2 d ++
        (84 :: (padDec 2 h ++ (58 :: (padDec 2 mi ++ (58 :: padDec 2 s))))))
      = some (d, 84 :: (padDec 2 h ++ (58 :: (padDec 2 mi ++ (58 :: padDec 2 s))))) :=
    scanField_padDec 2 d (by omega) (by omega) _
  have h4 : scanField 2 (padDec 2 h ++ (58 :: (padDec 2 mi ++ (58 :: padDec 2 s))))
      = some (h, 58 :: (padDec 2 mi ++ (58 :: padDec 2 s))) :=
    scanField_padDec 2 h (by omega) (by omega) _
  have h5 : scanField 2 (padDec 2 mi ++ (58 :: padDec 2 s))
      = some (mi, 58 :: padDec 2 s) :=
    scanField_padDec 2 mi (by omega) (by omega) _
  have h6 : scanField 2 (padDec 2 s) = some (s, []) := by
    have := scanField_padDec 2 s (by omega) (by omega) []
    rwa [List.append_nil] at this
  have hrange : ¬ ((y : ℤ) < t.min_year ∨ t.max_year < (y : ℤ) ∨
      mo < 1 ∨ 12 < mo ∨ d < 1 ∨ 31 < d ∨ 23 < h ∨ 59 < mi ∨ 60 < s) := by
    push_neg
    refine ⟨by omega, by omega, by omega, by omega, by omega, by omega, by omega,
      by omega, by omega⟩
  simp only [timestamp_parse, isoRender_sep y mo d h mi s, isoRender_drop y mo d h mi s,
    h1, h2, h3, h4, h5, h6, ne_eq, if_neg hrange]
  simp

/-- The decode positivity chain accepts any nondecreasing positive
cumulative token list whose first entry exceeds the offset. -/
theorem tsValid_cumulative (off a b c dd e f : ℤ)
    (h0 : 0 < a - off) (ha : 0 < a) (hab : a ≤ b) (hbc : b ≤ c)
    (hcd : c ≤ dd) (hde : dd ≤ e) (hef : e ≤ f) :
    tsValid off (fun i => ([a, b, c, dd, e, f] : List ℤ).getD i 0) = true := by
  have hb : 0 < b := by omega
  have hc : 0 < c := by omega
  have hd : 0 < dd := by omega
  have he : 0 < e := by omega
  have k1 : 0 < Int.tdiv ((a - off) * b) a := tdiv_chain_pos _ _ _ h0 ha hab
  have k2 : 0 < Int.tdiv (Int.tdiv ((a - off) * b) a * c) b := tdiv_chain_pos _ _ _ k1 hb hbc
  have k3 : 0 < Int.tdiv (Int.tdiv (Int.tdiv ((a - off) * b) a * c) b * dd) c :=
    tdiv_chain_pos _ _ _ k2 hc hcd
  have k4 : 0 < Int.tdiv (Int.tdiv (Int.tdiv (Int.tdiv ((a - off) * b) a * c) b * dd) c * e) dd :=
    tdiv_chain_pos _ _ _ k3 hd hde
  have k5 : 0 < Int.tdiv
      (Int.tdiv (Int.tdiv (Int.tdiv (Int.tdiv ((a - off) * b) a * c) b * dd) c * e) dd * f) e :=
    tdiv_chain_pos _ _ _ k4 he hef
  simp only [tsValid, List.getD_cons_zero, List.getD_cons_succ]
  rw [if_neg (by omega : ¬ (a - off ≤ 0)), if_neg (not_le.2 k1), if_neg (not_le.2 k2),
    if_neg (not_le.2 k3), if_neg (not_le.2 k4)]
  exact decide_eq_true k5

/-- C2, amended: for every variant-1 timestamp tokenizer with non-negative
offset, decoding the encoding of a canonical zero-padded in-range
`YYYY-MM-DDTHH:MM:SS` string returns exactly that string. -/
theorem timestamp_roundtrip (t : TimestampTokenizer1) (y mo d h mi s : ℕ)
    (hoff : 0 ≤ t.offset)
    (hy1 : t.min_year ≤ (y : ℤ)) (hy2 : (y : ℤ) ≤ t.max_year) (hy3 : y ≤ 9999)
    (hmo1 : 1 ≤ mo) (hmo2 : mo ≤ 12) (hd1 : 1 ≤ d) (hd2 : d ≤ 31)
    (hh : h ≤ 23) (hmi : mi ≤ 59) (hs : s ≤ 60) :
    timestamp_decode t (timestamp_encode t (isoRender y mo d h mi s))
      = isoRender y mo d h mi s := by
  have hp4 : (10 : ℕ) ^ 4 = 10000 := by norm_num
  have hp2 : (10 : ℕ) ^ 2 = 100 := by norm_num
  have hparse := timestamp_parse_isoRender t y mo d h mi s hy1 hy2 hy3 hmo1 hmo2 hd1 hd2 hh hmi hs
  have hE : timestamp_encode t (isoRender y mo d h mi s)
      = [1 + ((y : ℤ) - t.min_year) + t.offset,
         1 + ((y : ℤ) - t.min_year) + t.offset + ((mo : ℤ) - 1),
         1 + ((y : ℤ) - t.min_year) + t.offset + ((mo : ℤ) - 1) + (d : ℤ),
         1 + ((y : ℤ) - t.min_year) + t.offset + ((mo : ℤ) - 1) + (d : ℤ) + (h : ℤ),
         1 + ((y : ℤ) - t.min_year) + t.offset + ((mo : ℤ) - 1) + (d : ℤ) + (h : ℤ) + (mi : ℤ),
         1 + ((y : ℤ) - t.min_year) + t.offset + ((mo : ℤ) - 1) + (d : ℤ) + (h : ℤ) + (mi : ℤ) + (s : ℤ)] := by
    simp only [timestamp_encode, hparse]
  rw [hE]
  have hvalid := tsValid_cumulative t.offset
    (1 + ((y : ℤ) - t.min_year) + t.offset)
    (1 + ((y : ℤ) - t.min_year) + t.offset + ((mo : ℤ) - 1))
    (1 + ((y : ℤ) - t.min_year) + t.offset + ((mo : ℤ) - 1) + (d : ℤ))
    (1 + ((y : ℤ) - t.min_year) + t.offset + ((mo : ℤ) - 1) + (d : ℤ) + (h : ℤ))
    (1 + ((y : ℤ) - t.min_year) + t.offset + ((mo : ℤ) - 1) + (d : ℤ) + (h : ℤ) + (mi : ℤ))
    (1 + ((y : ℤ) - t.min_year) + t.offset + ((mo : ℤ) - 1) + (d : ℤ) + (h : ℤ) + (mi : ℤ) + (s : ℤ))
    (by omega) (by omega) (by omega) (by omega) (by omega) (by omega) (by omega)
  simp only [timestamp_decode, List.getD_cons_zero, List.getD_cons_succ]
  rw [hvalid]
  simp only [if_true]
  rw [show 1 + ((y : ℤ) - t.min_year) + t.offset - (1 - t.min_year + t.offset) = ((y : ℕ) : ℤ) by ring]
  rw [show 1 + ((y : ℤ) - t.min_year) + t.offset + ((mo : ℤ) - 1) -
      (1 + ((y : ℤ) - t.min_year) + t.offset) + 1 = ((mo : ℕ) : ℤ) by ring]
  rw [show 1 + ((y : ℤ) - t.min_year) + t.offset + ((mo : ℤ) - 1) + (d : ℤ) -
      (1 + ((y : ℤ) - t.min_year) + t.offset + ((mo : ℤ) - 1)) = ((d : ℕ) : ℤ) by ring]
  rw [show 1 + ((y : ℤ) - t.min_year) + t.offset + ((mo : ℤ) - 1) + (d : ℤ) + (h : ℤ) -
      (1 + ((y : ℤ) - t.min_year) + t.offset + ((mo : ℤ) - 1) + (d : ℤ)) = ((h : ℕ) : ℤ) by ring]
  rw [show 1 + ((y : ℤ) - t.min_year) + t.offset + ((mo : ℤ) - 1) + (d : ℤ) + (h : ℤ) + (mi : ℤ) -
      (1 + ((y : ℤ) - t.min_year) + t.offset + ((mo : ℤ) - 1) + (d : ℤ) + (h : ℤ)) = ((mi : ℕ) : ℤ) by ring]
  rw [show 1 + ((y : ℤ) - t.min_year) + t.offset + ((mo : ℤ) - 1) + (d : ℤ) + (h : ℤ) + (mi : ℤ) + (s : ℤ) -
      (1 + ((y : ℤ) - t.min_year) + t.offset + ((mo : ℤ) - 1) + (d : ℤ) + (h : ℤ) + (mi : ℤ)) = ((s : ℕ) : ℤ) by ring]
  rw [fmtInt_eq_padDec 4 y (by omega), fmtInt_eq_padDec 2 mo (by omega),
    fmtInt_eq_padDec 2 d (by omega), fmtInt_eq_padDec 2 h (by omega),
    fmtInt_eq_padDec 2 mi (by omega), fmtInt_eq_padDec 2 s (by omega)]
  simp [isoRender]

/-- Witness for `timestamp_roundtrip`: `min_year = 2000`, `max_year = 2030`,
offset `0`, timestamp `2025-12-31T23:59:58`. -/
theorem timestamp_roundtrip_witness :
    timestamp_decode ⟨2000, 2030, true, 0⟩
      (timestamp_encode ⟨2000, 2030, true, 0⟩ (isoRender 2025 12 31 23 59 58))
      = isoRender 2025 12 31 23 59 58 :=
  timestamp_roundtrip ⟨2000, 2030, true, 0⟩ 2025 12 31 23 59 58 (by decide) (by decide)
    (by decide) (by decide) (by decide) (by decide) (by decide) (by decide) (by decide)
    (by decide) (by decide)

/-- C2, counterexample: with the negative offset `-1000` the cumulative
tokens are negative and the truncating division chain of decode collapses
to zero, so the round trip of the perfectly well-formed in-range timestamp
`2000-01-02T00:00:00` yields `"__invalid__"` instead of the input. -/
theorem timestamp_roundtrip_counterexample :
    timestamp_decode ⟨2000, 2030, true, -1000⟩
      (timestamp_encode ⟨2000, 2030, true, -1000⟩ (strBytes "2000-01-02T00:00:00"))
      = strBytes "__invalid__" ∧
    strBytes "__invalid__" ≠ strBytes "2000-01-02T00:00:00" :=
  ⟨by decide, by decide⟩
